import Mathlib

/-
Verification of the zstack-analyzer volumetric analysis engine.

Shallow embedding of the core numeric routines of the repository:
  * src/core/gpu/kernels.py        (otsu_threshold, gaussian_blur_3d, sobel_3d,
                                    connected_components_3d)
  * src/core/gpu/deconvolution.py  (richardson_lucy_deconvolution, _pad_psf_to_volume)
  * src/core/gpu/analysis.py       (colocalization_analysis, _costes_threshold,
                                    compute_photobleaching_correction)
  * src/core/gpu/segmentation.py   (watershed_segmentation_3d, _generate_watershed_markers)
  * src/core/processing/analyzer.py (ZStackAnalyzer.analyze, _run_object_measurements)
  * src/core/gpu/device_manager.py (DeviceManager.estimate_max_volume_size,
                                    get_device_memory_info fallback)

Conventions of the embedding:
  * float32/float64 machine arithmetic is idealised as exact arithmetic over ℚ
    (where the source only adds, multiplies, divides and compares) or over ℝ
    (where the source takes square roots, exponentials or fractional powers);
  * numpy arrays are embedded either as flat lists of voxel values (for
    operations that are pointwise/global, such as Otsu and colocalization) or
    as a shape triple together with an index function (for operations where
    the 3-D structure matters, such as convolution and padding);
  * calls into external libraries that the repository delegates to
    (scipy.ndimage.label, skimage.segmentation.watershed,
    skimage.feature.peak_local_max, scipy.optimize.curve_fit) are modelled
    either by an explicit Lean implementation of the library's documented
    contract or by an explicit function parameter, as noted at each definition.
-/

namespace ZStack

/-! ### Device manager (src/core/gpu/device_manager.py) -/

/-- Data types accepted by `estimate_max_volume_size`; the source only
distinguishes `dtypes.float32` (4 bytes) from everything else (2 bytes). -/
inductive GpuDType where
  | float32
  | float16
deriving DecidableEq

/-- Memory statistics returned by `DeviceManager.get_device_memory_info`
(`total`, `available`, `used`, in bytes). -/
structure MemoryInfo where
  total : ℕ
  available : ℕ
  used : ℕ

/-- The fallback value `get_device_memory_info` returns when no platform
memory information is obtainable (the final `return` of the method):
all three statistics are zero. -/
def fallbackMemoryInfo : MemoryInfo := ⟨0, 0, 0⟩

/-- Embedding of `DeviceManager.estimate_max_volume_size`.  The source reads
`memory_info.get("available", 4 * 1024**3)` (the default is dead, since every
branch of `get_device_memory_info` produces an "available" key), divides by a
3x intermediate-buffer factor and the per-element byte size, takes
`int(elements ** (1/3))` and caps each side at 2048.  `int(·)` on a
nonnegative float is idealised as `Int.toNat ∘ Int.floor`. -/
noncomputable def estimate_max_volume_size
    (mem : MemoryInfo) (dtype : GpuDType) (safety_factor : ℝ) : ℕ × ℕ × ℕ :=
  let availableBytes : ℝ := mem.available
  let usableBytes : ℝ := availableBytes * safety_factor / 3
  let bytesPerElement : ℝ := if dtype = GpuDType.float32 then 4 else 2
  let elements : ℝ := usableBytes / bytesPerElement
  let sideLength : ℕ := (Int.floor (elements ^ ((1 : ℝ) / 3))).toNat
  let maxSide : ℕ := min sideLength 2048
  (maxSide, maxSide, maxSide)

/-! ### Analysis orchestrator (src/core/processing/analyzer.py) -/

/-- Observable effects of `ZStackAnalyzer.analyze` and of the per-algorithm
runners, in the order the source performs them.  Used to express the
"fails fast before any compute starts" claims. -/
inductive AnalyzeEvent where
  | loadImage
  | runAlgorithm (name : String)
  | computeMeasurements
deriving DecidableEq

/-- The keys of `self.available_algorithms` built in `ZStackAnalyzer.__init__`. -/
def availableAlgorithms : List String :=
  ["segmentation_3d", "colocalization", "intensity_analysis", "deconvolution",
   "blob_detection", "object_measurements", "z_profile"]

/-- Embedding of the control skeleton of `ZStackAnalyzer.analyze`: the
algorithm id is checked against `available_algorithms` first and an unknown id
raises (`Except.error`) before the image loader or any algorithm function is
invoked.  Image loading and the algorithm body are abstracted as the function
parameters `loadImage` and `runAlg`; the returned event trace records which of
them ran, in order. -/
def analyze {V R : Type} (loadImage : String → V) (runAlg : String → V → R)
    (file_path : String) (algorithm : String) :
    Except String R × List AnalyzeEvent :=
  if algorithm ∈ availableAlgorithms then
    let data := loadImage file_path
    (Except.ok (runAlg algorithm data),
     [AnalyzeEvent.loadImage, AnalyzeEvent.runAlgorithm algorithm])
  else
    (Except.error ("Unknown algorithm: " ++ algorithm), [])

/-- Parameter mapping consumed by `ZStackAnalyzer._run_object_measurements`:
`parameters.get("labels")`, `parameters.get("voxel_size", (1,1,1))` and
`parameters.get("compute_surface", True)`. -/
structure ObjectMeasurementsParams (L : Type) where
  labels : Option L
  voxel_size : ℚ × ℚ × ℚ
  compute_surface : Bool

/-- Embedding of the control skeleton of
`ZStackAnalyzer._run_object_measurements`: a missing `labels` parameter raises
(`Except.error`) before the measurement computation (abstracted as the
function parameter `measure`) starts; the event trace records whether the
measurement ran. -/
def run_object_measurements {L M : Type} (measure : L → M)
    (params : ObjectMeasurementsParams L) :
    Except String M × List AnalyzeEvent :=
  match params.labels with
  | none => (Except.error "object_measurements requires 'labels' parameter", [])
  | some l => (Except.ok (measure l), [AnalyzeEvent.computeMeasurements])

/-! ### Volumes as shape-plus-index-function (used by the convolution-style
kernels of src/core/gpu/kernels.py and src/core/gpu/deconvolution.py) -/

/-- A 3-D volume: spatial shape `(nz, ny, nx)` in `(z, y, x)` order together
with a total index function.  Only indices below the shape are meaningful. -/
structure Vol3 where
  nz : ℕ
  ny : ℕ
  nx : ℕ
  data : ℕ → ℕ → ℕ → ℝ

/-- Sum of all voxels of a volume (`np.ndarray.sum`). -/
noncomputable def volSum (v : Vol3) : ℝ :=
  ∑ i ∈ Finset.range v.nz, ∑ j ∈ Finset.range v.ny, ∑ k ∈ Finset.range v.nx,
    v.data i j k

/-! ### Deconvolution (src/core/gpu/deconvolution.py) -/

/-- Value of a convolution kernel at the (possibly out-of-range) integer
offsets `bz by bx`; zero outside the kernel's support.  Helper for the
full-to-same cropping of `scipy.signal.fftconvolve(·, ·, mode="same")`. -/
noncomputable def kernelAt (ker : Vol3) (bz bY bx : ℤ) : ℝ :=
  if 0 ≤ bz ∧ bz < ker.nz ∧ 0 ≤ bY ∧ bY < ker.ny ∧ 0 ≤ bx ∧ bx < ker.nx then
    ker.data bz.toNat bY.toNat bx.toNat
  else 0

/-- Embedding of `_convolve_fft`: `scipy.signal.fftconvolve(volume, kernel,
mode="same")`, that is, the full linear convolution cropped to the volume's
shape, centred (the crop starts at `(K-1)//2` along an axis of kernel size
`K`). -/
noncomputable def convolve_fft (v ker : Vol3) : Vol3 :=
  { v with
    data := fun i j k =>
      ∑ az ∈ Finset.range v.nz, ∑ ay ∈ Finset.range v.ny, ∑ ax ∈ Finset.range v.nx,
        v.data az ay ax *
          kernelAt ker ((i : ℤ) + ((ker.nz - 1 : ℕ) / 2 : ℕ) - az)
            ((j : ℤ) + ((ker.ny - 1 : ℕ) / 2 : ℕ) - ay)
            ((k : ℤ) + ((ker.nx - 1 : ℕ) / 2 : ℕ) - ax) }

/-- PSF normalisation `psf = psf / psf.sum()` at the top of
`richardson_lucy_deconvolution`. -/
noncomputable def psfNormalize (psf : Vol3) : Vol3 :=
  { psf with data := fun i j k => psf.data i j k / volSum psf }

/-- Point reflection `np.flip(psf)` (reversal along every axis). -/
def psfFlip (psf : Vol3) : Vol3 :=
  { psf with data := fun i j k => psf.data (psf.nz - 1 - i) (psf.ny - 1 - j) (psf.nx - 1 - k) }

/-- One Richardson-Lucy iteration of the loop body of
`richardson_lucy_deconvolution`: forward convolution, ratio with an epsilon
guard, back-projection with the flipped PSF, multiplicative update and the
optional non-negativity clip. -/
noncomputable def rlStep (observed psfN psfFlipped : Vol3) (clip : Bool)
    (estimate : Vol3) : Vol3 :=
  let convolved := convolve_fft estimate psfN
  let ratio : Vol3 :=
    { observed with
      data := fun i j k => observed.data i j k / (convolved.data i j k + 1e-10) }
  let correction := convolve_fft ratio psfFlipped
  let updated : Vol3 :=
    { estimate with
      data := fun i j k => estimate.data i j k * correction.data i j k }
  if clip then
    { updated with data := fun i j k => max (updated.data i j k) 0 }
  else updated

/-- Embedding of `richardson_lucy_deconvolution(volume, psf, iterations, clip)`:
the PSF is normalised and point-reflected once up front, the estimate is
initialised with the observed volume, and the update step runs `iterations`
times. -/
noncomputable def richardson_lucy_deconvolution
    (volume psf : Vol3) (iterations : ℕ) (clip : Bool) : Vol3 :=
  let psfN := psfNormalize psf
  let psfFlipped := psfFlip psfN
  (rlStep volume psfN psfFlipped clip)^[iterations] volume

/-- The intermediate array of `_pad_psf_to_volume` before the roll: the PSF
written into an all-zero array of the target shape at offset
`pad_axis = (target - psf_shape) // 2` along each axis. -/
noncomputable def psfPadCentered (psf : Vol3) (tz ty tx : ℕ) : ℕ → ℕ → ℕ → ℝ :=
  let pz := (tz - psf.nz) / 2
  let py := (ty - psf.ny) / 2
  let px := (tx - psf.nx) / 2
  fun i j k =>
    if pz ≤ i ∧ i < pz + psf.nz ∧ py ≤ j ∧ j < py + psf.ny ∧ px ≤ k ∧ k < px + psf.nx then
      psf.data (i - pz) (j - py) (k - px)
    else 0

/-- Embedding of `_pad_psf_to_volume(psf, target_shape)`: centre-placement
into a zero array followed by `np.roll(padded, shift=(-pad_z, -pad_y, -pad_x))`,
i.e. the rolled array reads the centred array at index `(i + pad) % target`
along each axis. -/
noncomputable def pad_psf_to_volume (psf : Vol3) (tz ty tx : ℕ) : Vol3 :=
  let pz := (tz - psf.nz) / 2
  let py := (ty - psf.ny) / 2
  let px := (tx - psf.nx) / 2
  ⟨tz, ty, tx, fun i j k =>
    psfPadCentered psf tz ty tx ((i + pz) % tz) ((j + py) % ty) ((k + px) % tx)⟩

/-! ### Photobleaching correction (src/core/gpu/analysis.py) -/

/-- The exponential decay model `exp_decay(z, I0, lamb) = I0 * exp(-lamb * z)`
fitted by `compute_photobleaching_correction`. -/
noncomputable def exp_decay (I0 lamb z : ℝ) : ℝ := I0 * Real.exp (-lamb * z)

/-- Degree-1 least-squares fit `np.polyfit(z_values, mean_values, 1)`,
written in closed form `(slope, intercept)`; `np.polyfit` computes exactly
this least-squares solution (whenever the z-values are not all equal). -/
noncomputable def linearFit (zs ms : List ℝ) : ℝ × ℝ :=
  let n : ℝ := zs.length
  let sz := zs.sum
  let sm := ms.sum
  let szz := (zs.map (fun z => z ^ 2)).sum
  let szm := ((zs.zip ms).map (fun p => p.1 * p.2)).sum
  let slope := (n * szm - sz * sm) / (n * szz - sz ^ 2)
  (slope, (sm - slope * sz) / n)

/-- The linear branch of `compute_photobleaching_correction`:
`correction = mean_values[0] / np.polyval(coeffs, z_values)`. -/
noncomputable def linearCorrection (zs ms : List ℝ) : List ℝ :=
  let fit := linearFit zs ms
  zs.map (fun z => ms.headD 0 / (fit.1 * z + fit.2))

/-- Embedding of `compute_photobleaching_correction(z_profile, method)`.
`zs` and `ms` are the `"z"` and `"mean"` columns of the profile.  The outcome
of the external `scipy.optimize.curve_fit` call is passed in as `expFit`:
`some (I0, lamb)` when the fit converges to those parameters, `none` when it
raises (the source catches the exception and falls through to the linear
branch).  A method other than `"exponential"`/`"linear"` leaves `correction`
unbound in the source (`NameError`), modelled as `none`. -/
noncomputable def compute_photobleaching_correction
    (zs ms : List ℝ) (expFit : Option (ℝ × ℝ)) (method : String) :
    Option (List ℝ) :=
  if method = "exponential" then
    match expFit with
    | some (I0, lamb) => some (zs.map (fun z => Real.exp (lamb * z) / I0))
    | none => some (linearCorrection zs ms)
  else if method = "linear" then
    some (linearCorrection zs ms)
  else none

/-! ### Otsu threshold (src/core/gpu/kernels.py, otsu_threshold) -/

/-- `volume.min()` over the flattened voxel list (0 on an empty volume; the
source would raise there). -/
def volMinQ (V : List ℚ) : ℚ :=
  match V with
  | [] => 0
  | v :: vs => vs.foldl min v

/-- `volume.max()` over the flattened voxel list. -/
def volMaxQ (V : List ℚ) : ℚ :=
  match V with
  | [] => 0
  | v :: vs => vs.foldl max v

/-- Min/max normalisation of a voxel in `otsu_threshold`:
`(v - vol_min) / (vol_max - vol_min + 1e-10)`. -/
def otsuNorm (V : List ℚ) (v : ℚ) : ℚ :=
  (v - volMinQ V) / (volMaxQ V - volMinQ V + 1e-10)

/-- Histogram bin of a voxel: `(vol_norm * (num_bins - 1)).cast(dtypes.int32)`
with `num_bins = 256`.  The int32 cast truncates toward zero; on the
nonnegative normalised values this is the floor. -/
def otsuBinIdx (V : List ℚ) (v : ℚ) : ℕ :=
  (Int.floor (otsuNorm V v * 255)).toNat

/-- Histogram of `otsu_threshold` (`np.bincount` of the bin indices,
as float counts). -/
def otsuHist (V : List ℚ) (i : ℕ) : ℚ :=
  ((V.filter (fun v => otsuBinIdx V v = i)).length : ℚ)

/-- Loop state of the threshold search in `otsu_threshold`:
`current_max`, `threshold_idx`, `sum_background`, `weight_background`. -/
structure OtsuState where
  cm : ℚ
  ti : ℕ
  sumB : ℚ
  wB : ℚ

/-- The `for i in range(num_bins)` loop of `otsu_threshold`.
`weight_background` is updated first; a zero background weight `continue`s
(without updating `sum_background`), a zero foreground weight `break`s, and
otherwise the between-class variance is compared strictly against
`current_max`. -/
def otsuLoop (hist : ℕ → ℚ) (total sumTotal : ℚ) :
    List ℕ → OtsuState → OtsuState
  | [], s => s
  | i :: rest, s =>
    let wB := s.wB + hist i
    if wB = 0 then
      otsuLoop hist total sumTotal rest { s with wB := wB }
    else if total - wB = 0 then
      { s with wB := wB }
    else
      let sumB := s.sumB + (i : ℚ) * hist i
      let meanB := sumB / wB
      let meanF := (sumTotal - sumB) / (total - wB)
      let vb := wB * (total - wB) * (meanB - meanF) ^ 2
      if s.cm < vb then otsuLoop hist total sumTotal rest ⟨vb, i, sumB, wB⟩
      else otsuLoop hist total sumTotal rest ⟨s.cm, s.ti, sumB, wB⟩

/-- Embedding of `otsu_threshold(volume, num_bins=256)` on the flattened
voxel list: histogram over the min/max-normalised volume, threshold scan,
rescaling of the winning bin index to original units
(`idx/255 * (vol_max - vol_min) + vol_min`), and the binary mask
`(volume >= threshold_value)` as 0/1 floats. -/
def otsu_threshold (V : List ℚ) : ℚ × List ℚ :=
  let hist := otsuHist V
  let total := ∑ i ∈ Finset.range 256, hist i
  let sumTotal := ∑ i ∈ Finset.range 256, (i : ℚ) * hist i
  let final := otsuLoop hist total sumTotal (List.range 256) ⟨0, 0, 0, 0⟩
  let thresholdValue := (final.ti : ℚ) / 255 * (volMaxQ V - volMinQ V) + volMinQ V
  (thresholdValue, V.map (fun v => if thresholdValue ≤ v then (1 : ℚ) else 0))

/-! ### Separable Gaussian blur (src/core/gpu/kernels.py, gaussian_blur_3d
and _convolve_1d) -/

/-- Kernel size of `gaussian_blur_3d`: `int(6 * sigma + 1)`, incremented to
the next odd number when even. -/
noncomputable def gaussKernelSize (sigma : ℝ) : ℕ :=
  let k := (Int.floor (6 * sigma + 1)).toNat
  if k % 2 = 0 then k + 1 else k

/-- Unnormalised 1-D Gaussian tap `np.exp(-0.5 * (x / sigma) ** 2)` at
position `t` of a kernel of size `ks`, where `x = t - ks // 2`. -/
noncomputable def gaussWeight (sigma : ℝ) (ks t : ℕ) : ℝ :=
  Real.exp (-0.5 * (((t : ℝ) - ((ks / 2 : ℕ) : ℝ)) / sigma) ^ 2)

/-- The normalised 1-D Gaussian kernel (`kernel_1d /= kernel_1d.sum()`). -/
noncomputable def gaussKernel (sigma : ℝ) (t : ℕ) : ℝ :=
  gaussWeight sigma (gaussKernelSize sigma) t /
    ∑ s ∈ Finset.range (gaussKernelSize sigma), gaussWeight sigma (gaussKernelSize sigma) s

/-- Source index read by the edge-replicating padding of `_convolve_1d` for
window position `m` (an index into the padded axis of length `n + 2 * pad`):
the first `pad` entries replicate sample 0 and the last `pad` entries
replicate sample `n - 1`. -/
def replIdx (n pad m : ℕ) : ℕ :=
  if m < pad then 0 else if m - pad < n then m - pad else n - 1

/-- `_convolve_1d` along the z axis: for each output position, the kernel is
applied to a window of the edge-replication-padded axis. -/
noncomputable def convolve1dZ (ker : ℕ → ℝ) (ks : ℕ) (v : Vol3) : Vol3 :=
  { v with data := fun i j k =>
      ∑ t ∈ Finset.range ks, ker t * v.data (replIdx v.nz (ks / 2) (i + t)) j k }

/-- `_convolve_1d` along the y axis. -/
noncomputable def convolve1dY (ker : ℕ → ℝ) (ks : ℕ) (v : Vol3) : Vol3 :=
  { v with data := fun i j k =>
      ∑ t ∈ Finset.range ks, ker t * v.data i (replIdx v.ny (ks / 2) (j + t)) k }

/-- `_convolve_1d` along the x axis. -/
noncomputable def convolve1dX (ker : ℕ → ℝ) (ks : ℕ) (v : Vol3) : Vol3 :=
  { v with data := fun i j k =>
      ∑ t ∈ Finset.range ks, ker t * v.data i j (replIdx v.nx (ks / 2) (k + t)) }

/-- Embedding of `gaussian_blur_3d(volume, sigma)`: the normalised 1-D kernel
applied sequentially along z, then y, then x. -/
noncomputable def gaussian_blur_3d (volume : Vol3) (sigma : ℝ) : Vol3 :=
  let ks := gaussKernelSize sigma
  let ker := gaussKernel sigma
  convolve1dX ker ks (convolve1dY ker ks (convolve1dZ ker ks volume))

/-! ### Sobel gradient magnitude (src/core/gpu/kernels.py, sobel_3d and
_convolve_3d) -/

/-- The `sobel_x` kernel array (before the division by 32). -/
def sobelXArr : List (List (List ℝ)) :=
  [[[-1, 0, 1], [-2, 0, 2], [-1, 0, 1]],
   [[-2, 0, 2], [-4, 0, 4], [-2, 0, 2]],
   [[-1, 0, 1], [-2, 0, 2], [-1, 0, 1]]]

/-- The `sobel_y` kernel array (before the division by 32). -/
def sobelYArr : List (List (List ℝ)) :=
  [[[-1, -2, -1], [0, 0, 0], [1, 2, 1]],
   [[-2, -4, -2], [0, 0, 0], [2, 4, 2]],
   [[-1, -2, -1], [0, 0, 0], [1, 2, 1]]]

/-- The `sobel_z` kernel array (before the division by 32). -/
def sobelZArr : List (List (List ℝ)) :=
  [[[-1, -2, -1], [-2, -4, -2], [-1, -2, -1]],
   [[0, 0, 0], [0, 0, 0], [0, 0, 0]],
   [[1, 2, 1], [2, 4, 2], [1, 2, 1]]]

/-- Entry `(i, j, k)` of a 3x3x3 Sobel kernel, divided by 32 as in the
source arrays. -/
noncomputable def kernel3At (a : List (List (List ℝ))) (i j k : ℕ) : ℝ :=
  (((a.getD i []).getD j []).getD k 0) / 32

/-- Embedding of `_convolve_3d(volume, kernel)`: valid 3x3x3 convolution,
producing a `(z-2, y-2, x-2)` result (the padded array built afterwards in
the source is dead code; the unpadded `result` is returned). -/
noncomputable def convolve_3d (v : Vol3) (ker : ℕ → ℕ → ℕ → ℝ) : Vol3 :=
  ⟨v.nz - 2, v.ny - 2, v.nx - 2, fun i j k =>
    ∑ kz ∈ Finset.range 3, ∑ ky ∈ Finset.range 3, ∑ kx ∈ Finset.range 3,
      v.data (kz + i) (ky + j) (kx + k) * ker kz ky kx⟩

/-- Embedding of `sobel_3d(volume)`: the three directional gradients combined
as a per-voxel Euclidean norm. -/
noncomputable def sobel_3d (v : Vol3) : Vol3 :=
  let gx := convolve_3d v (kernel3At sobelXArr)
  let gy := convolve_3d v (kernel3At sobelYArr)
  let gz := convolve_3d v (kernel3At sobelZArr)
  ⟨v.nz - 2, v.ny - 2, v.nx - 2, fun i j k =>
    Real.sqrt ((gx.data i j k) ^ 2 + (gy.data i j k) ^ 2 + (gz.data i j k) ^ 2)⟩

/-! ### Watershed segmentation (src/core/gpu/segmentation.py) -/

/-- All voxel values of a volume, in raster (z, y, x) order. -/
def volValues (v : Vol3) : List ℝ :=
  ((List.range v.nz).map (fun i =>
    ((List.range v.ny).map (fun j =>
      (List.range v.nx).map (fun k => v.data i j k))).flatten)).flatten

/-- `volume.max()` for a shape-indexed volume (0 on an empty volume; the
source would raise there). -/
noncomputable def volMaxR (v : Vol3) : ℝ :=
  (volValues v).foldr max ((volValues v).headD 0)

/-- The marker array built in `_generate_watershed_markers`:
`markers[tuple(coordinates.T)] = np.arange(1, len(coordinates) + 1)`, i.e. a
zero array written at every listed coordinate with its 1-based position
(later writes win, matching numpy assignment order). -/
def markersFromCoords (coords : List (ℕ × ℕ × ℕ)) : (ℕ × ℕ × ℕ) → ℕ :=
  coords.enum.foldl (fun m p => fun idx => if idx = p.2 then p.1 + 1 else m idx)
    (fun _ => 0)

/-- The inverted volume `volume.max() - volume` used to locate minima as
maxima in `_generate_watershed_markers`. -/
noncomputable def invertVol (v : Vol3) : Vol3 :=
  { v with data := fun i j k => volMaxR v - v.data i j k }

/-- Embedding of `_generate_watershed_markers(volume, min_distance)`.  The
external `skimage.feature.peak_local_max` call (with `exclude_border=True`)
is abstracted as the function parameter `plm`, applied to the inverted
volume. -/
noncomputable def generate_watershed_markers
    (plm : Vol3 → ℕ → List (ℕ × ℕ × ℕ)) (volume : Vol3) (min_distance : ℕ) :
    (ℕ × ℕ × ℕ) → ℕ :=
  markersFromCoords (plm (invertVol volume) min_distance)

/-- Embedding of `watershed_segmentation_3d(volume, markers, mask,
compactness)`.  The external `skimage.segmentation.watershed` flood is
abstracted as the function parameter `flood` (producing an arbitrary result
type); `plm` abstracts `peak_local_max` as above.  Absent markers are derived
from the local minima of the input, and the gradient heuristic floods
`sobel_3d(volume)` exactly when `volume.max() > 1.0`, the input itself
otherwise. -/
noncomputable def watershed_segmentation_3d {α : Type}
    (flood : Vol3 → ((ℕ × ℕ × ℕ) → ℕ) → Option (ℕ → ℕ → ℕ → Bool) → ℝ → α)
    (plm : Vol3 → ℕ → List (ℕ × ℕ × ℕ))
    (volume : Vol3) (markers : Option ((ℕ × ℕ × ℕ) → ℕ))
    (mask : Option (ℕ → ℕ → ℕ → Bool)) (compactness : ℝ) : α :=
  let m := match markers with
    | none => generate_watershed_markers plm volume 10
    | some m0 => m0
  let gradient := if 1 < volMaxR volume then sobel_3d volume else volume
  flood gradient m mask compactness

/-! ### Connected components (src/core/gpu/kernels.py, connected_components_3d)

The source delegates the labeling pass itself to `scipy.ndimage.label`
(default structuring element, i.e. face/6-connectivity), whose documented
contract is: background stays 0 and the features found are labeled with
consecutive integers 1..num_features.  That contract is modelled here by an
executable labeling function: every foreground cell is assigned the minimum
linear index reachable in its component (computed by iterated minimum
propagation over foreground neighbours), and the distinct representatives are
then numbered densely 1..N in raster order. -/

/-- A binary volume: shape plus a Boolean index function. -/
structure BinVol where
  nz : ℕ
  ny : ℕ
  nx : ℕ
  data : ℕ → ℕ → ℕ → Bool

/-- Number of voxels of a binary volume. -/
def numCells (V : BinVol) : ℕ := V.nz * V.ny * V.nx

/-- Coordinates of the voxel with linear (raster-order) index `i`. -/
def cellCoord (V : BinVol) (i : ℕ) : ℕ × ℕ × ℕ :=
  (i / (V.ny * V.nx), (i / V.nx) % V.ny, i % V.nx)

/-- Linear index of the voxel at coordinates `(z, y, x)`. -/
def linIdx (V : BinVol) (z y x : ℕ) : ℕ := (z * V.ny + y) * V.nx + x

/-- Whether the voxel with linear index `i` is foreground. -/
def isFg (V : BinVol) (i : ℕ) : Bool :=
  V.data (cellCoord V i).1 (cellCoord V i).2.1 (cellCoord V i).2.2

/-- Face-adjacent (6-connected) in-bounds neighbours of a voxel, as linear
indices; this is the default connectivity of `scipy.ndimage.label` in 3-D. -/
def nbrs (V : BinVol) (i : ℕ) : List ℕ :=
  let z := (cellCoord V i).1
  let y := (cellCoord V i).2.1
  let x := (cellCoord V i).2.2
  (if z + 1 < V.nz then [linIdx V (z + 1) y x] else []) ++
  (if 0 < z then [linIdx V (z - 1) y x] else []) ++
  (if y + 1 < V.ny then [linIdx V z (y + 1) x] else []) ++
  (if 0 < y then [linIdx V z (y - 1) x] else []) ++
  (if x + 1 < V.nx then [linIdx V z y (x + 1)] else []) ++
  (if 0 < x then [linIdx V z y (x - 1)] else [])

/-- One step of minimum propagation: each cell adopts the smallest
representative among itself and its foreground neighbours. -/
def repStep (V : BinVol) (r : ℕ → ℕ) : ℕ → ℕ :=
  fun i => ((nbrs V i).filter (isFg V)).foldl (fun m j => min m (r j)) (r i)

/-- Component representative of each cell: minimum propagation iterated once
per voxel, which reaches the minimum linear index of the component. -/
def reps (V : BinVol) : ℕ → ℕ := (repStep V)^[numCells V] id

/-- Linear indices of all foreground voxels, in raster order. -/
def fgIdxs (V : BinVol) : List ℕ := (List.range (numCells V)).filter (isFg V)

/-- The distinct component representatives in order of first appearance. -/
def repList (V : BinVol) : List ℕ := ((fgIdxs V).map (reps V)).dedup

/-- The labeling pass (model of `scipy.ndimage.label`): background voxels get
0 and each foreground voxel gets the dense 1-based number of its component
representative; also returns `num_features`. -/
def labelVol (V : BinVol) : (ℕ → ℕ) × ℕ :=
  (fun i => if isFg V i then (repList V).indexOf (reps V i) + 1 else 0,
   (repList V).length)

/-- Voxel count of label `l` in a labeled volume over the cells of `V`
(`ndimage.sum(binary_volume, labeled, ...)` of a 0/1 volume is the voxel
count of each label). -/
def componentSize (V : BinVol) (L : ℕ → ℕ) (l : ℕ) : ℕ :=
  ((List.range (numCells V)).filter (fun i => L i = l)).length

/-- Embedding of `connected_components_3d(binary_volume, min_size)`: a first
labeling pass; then, only when `min_size > 1`, components smaller than
`min_size` are removed (and label 0 is always removed) from the binary volume
and a second labeling pass relabels the survivors densely. -/
def connected_components_3d (V : BinVol) (min_size : ℕ) : (ℕ → ℕ) × ℕ :=
  let first := labelVol V
  if 1 < min_size then
    let keep : ℕ → Bool := fun l =>
      decide (min_size ≤ componentSize V first.1 l) && decide (l ≠ 0)
    let masked : BinVol := { V with data := fun z y x => keep (first.1 (linIdx V z y x)) }
    labelVol masked
  else first

/-! ### Colocalization (src/core/gpu/analysis.py, colocalization_analysis and
_costes_threshold) -/

/-- The channel actually analysed: multiplied pointwise by the mask when a
mask is supplied (`ch1_tensor = ch1_tensor * mask_tensor`). -/
def maskedChannel (ch : List ℚ) (mask : Option (List ℚ)) : List ℚ :=
  match mask with
  | none => ch
  | some m => ch.zipWith (· * ·) m

/-- `n_pixels`: the mask sum when a mask is supplied, the voxel count
otherwise. -/
def nPixels (ch : List ℚ) (mask : Option (List ℚ)) : ℚ :=
  match mask with
  | none => (ch.length : ℚ)
  | some m => m.sum

/-- The mean-subtracted channel `diff = ch - ch.sum() / n_pixels`. -/
def centeredChannel (ch : List ℚ) (mask : Option (List ℚ)) : List ℚ :=
  let c := maskedChannel ch mask
  c.map (fun a => a - c.sum / nPixels ch mask)

/-- `(diff ** 2).sum()`, one factor of the Pearson denominator. -/
def sumSqDev (ch : List ℚ) (mask : Option (List ℚ)) : ℚ :=
  ((centeredChannel ch mask).map (fun d => d ^ 2)).sum

/-- The Pearson numerator `(diff1 * diff2).sum()`. -/
def pearsonNum (ch1 ch2 : List ℚ) (mask : Option (List ℚ)) : ℚ :=
  ((centeredChannel ch1 mask).zipWith (· * ·) (centeredChannel ch2 mask)).sum

/-- `pearson_r = numerator / (sqrt(sum1 * sum2) + 1e-10)`. -/
noncomputable def pearsonR (ch1 ch2 : List ℚ) (mask : Option (List ℚ)) : ℝ :=
  (pearsonNum ch1 ch2 mask : ℝ) /
    (Real.sqrt ((sumSqDev ch1 mask * sumSqDev ch2 mask : ℚ) : ℝ) + 1e-10)

/-- The strictly positive entries of a channel (`ch_flat[ch_flat > 0]`). -/
def positives (l : List ℚ) : List ℚ := l.filter (fun a => 0 < a)

/-- `np.percentile(values, 50)` with the default linear interpolation:
the middle element of the sorted data for odd length, the mean of the two
middle elements for even length (0 on empty data, where numpy raises). -/
def percentile50 (l : List ℚ) : ℚ :=
  let s := l.mergeSort (fun a b => a ≤ b)
  let n := s.length
  if n % 2 = 1 then s.getD (n / 2) 0
  else (s.getD (n / 2 - 1) 0 + s.getD (n / 2) 0) / 2

/-- Embedding of `_costes_threshold(channel1, channel2, mask)`: the median of
the strictly positive intensities of each (mask-restricted) channel. -/
def costes_threshold (ch1 ch2 : List ℚ) (mask : Option (List ℚ)) : ℚ × ℚ :=
  let sel : List ℚ → List ℚ := fun ch =>
    match mask with
    | none => ch
    | some m => ((ch.zip m).filter (fun p => decide (p.2 ≠ 0))).map (fun p => p.1)
  (percentile50 (positives (sel ch1)), percentile50 (positives (sel ch2)))

/-- The thresholds used by `colocalization_analysis`: when either supplied
threshold is `None`, both are recomputed by `_costes_threshold` on the
(masked) channels. -/
def colocThresholds (ch1 ch2 : List ℚ) (mask : Option (List ℚ))
    (t1 t2 : Option ℚ) : ℚ × ℚ :=
  if t1.isNone || t2.isNone then
    costes_threshold (maskedChannel ch1 mask) (maskedChannel ch2 mask) mask
  else (t1.getD 0, t2.getD 0)

/-- The 0/1 indicator `(ch >= threshold)` as floats. -/
def aboveMask (ch : List ℚ) (t : ℚ) : List ℚ :=
  ch.map (fun a => if t ≤ a then (1 : ℚ) else 0)

/-- `(ch1 * ch1_above).sum()`, the denominator of Manders' M1 (before the
epsilon guard). -/
def mandersDenom1 (ch1 ch2 : List ℚ) (mask : Option (List ℚ))
    (t1 t2 : Option ℚ) : ℚ :=
  let c1 := maskedChannel ch1 mask
  let th := colocThresholds ch1 ch2 mask t1 t2
  (c1.zipWith (· * ·) (aboveMask c1 th.1)).sum

/-- Manders' M1 `(ch1 * ch1_above * ch2_above).sum() / (ch1_above_total + 1e-10)`. -/
def mandersM1 (ch1 ch2 : List ℚ) (mask : Option (List ℚ))
    (t1 t2 : Option ℚ) : ℚ :=
  let c1 := maskedChannel ch1 mask
  let c2 := maskedChannel ch2 mask
  let th := colocThresholds ch1 ch2 mask t1 t2
  let a1 := aboveMask c1 th.1
  let a2 := aboveMask c2 th.2
  ((c1.zipWith (· * ·) a1).zipWith (· * ·) a2).sum /
    ((c1.zipWith (· * ·) a1).sum + 1e-10)

/-- Manders' M2 `(ch2 * ch1_above * ch2_above).sum() / (ch2_above_total + 1e-10)`. -/
def mandersM2 (ch1 ch2 : List ℚ) (mask : Option (List ℚ))
    (t1 t2 : Option ℚ) : ℚ :=
  let c1 := maskedChannel ch1 mask
  let c2 := maskedChannel ch2 mask
  let th := colocThresholds ch1 ch2 mask t1 t2
  let a1 := aboveMask c1 th.1
  let a2 := aboveMask c2 th.2
  ((c2.zipWith (· * ·) a1).zipWith (· * ·) a2).sum /
    ((c2.zipWith (· * ·) a2).sum + 1e-10)

/-- The Jaccard-style overlap coefficient of `colocalization_analysis`. -/
def overlapCoefficient (ch1 ch2 : List ℚ) (mask : Option (List ℚ))
    (t1 t2 : Option ℚ) : ℚ :=
  let c1 := maskedChannel ch1 mask
  let c2 := maskedChannel ch2 mask
  let th := colocThresholds ch1 ch2 mask t1 t2
  let a1 := aboveMask c1 th.1
  let a2 := aboveMask c2 th.2
  (a1.zipWith (· * ·) a2).sum /
    (a1.sum + a2.sum - (a1.zipWith (· * ·) a2).sum + 1e-10)

/-- The result mapping of `colocalization_analysis`. -/
structure ColocResults where
  pearson_r : ℝ
  manders_m1 : ℚ
  manders_m2 : ℚ
  overlap_coefficient : ℚ
  threshold_ch1 : ℚ
  threshold_ch2 : ℚ

/-- Embedding of `colocalization_analysis(channel1, channel2, mask,
threshold_ch1, threshold_ch2)` on flattened channels (all its operations are
pointwise or global reductions, so flattening is faithful). -/
noncomputable def colocalization_analysis (ch1 ch2 : List ℚ)
    (mask : Option (List ℚ)) (t1 t2 : Option ℚ) : ColocResults :=
  { pearson_r := pearsonR ch1 ch2 mask
    manders_m1 := mandersM1 ch1 ch2 mask t1 t2
    manders_m2 := mandersM2 ch1 ch2 mask t1 t2
    overlap_coefficient := overlapCoefficient ch1 ch2 mask t1 t2
    threshold_ch1 := (colocThresholds ch1 ch2 mask t1 t2).1
    threshold_ch2 := (colocThresholds ch1 ch2 mask t1 t2).2 }

/-! ### Concrete inputs used by counterexamples and witnesses -/

/-- A `(1, 1, 3)` volume with a single unit impulse in the corner voxel. -/
noncomputable def impulseVol : Vol3 :=
  ⟨1, 1, 3, fun _ _ k => if k = 0 then 1 else 0⟩

/-- A `(1, 1, 1)` PSF with the single value 1. -/
noncomputable def unitPsf : Vol3 := ⟨1, 1, 1, fun _ _ _ => 1⟩

/-- A `(3, 3, 3)` PSF whose only nonzero sample (its peak) is the central
voxel `(1, 1, 1)`. -/
noncomputable def deltaPsf3 : Vol3 :=
  ⟨3, 3, 3, fun i j k => if i = 1 ∧ j = 1 ∧ k = 1 then 1 else 0⟩

/-- A `(1, 1, 1)` volume with the single value 2 (maximum above 1). -/
noncomputable def brightVol : Vol3 := ⟨1, 1, 1, fun _ _ _ => 2⟩

/-- A `(1, 1, 2)` all-foreground binary volume. -/
def allFgVol : BinVol := ⟨1, 1, 2, fun _ _ _ => true⟩

/-! ## Theorems -/

/-! ### C10: estimate_max_volume_size -/

/-- C10: for every memory report, dtype and (nonnegative, as documented)
safety factor, `estimate_max_volume_size` returns a cubic bound - all three
sides equal and at most 2048 - and when the reported available memory is 0
(the `get_device_memory_info` fallback) it returns `(0, 0, 0)`, not the 4 GB
default (which is dead code). -/
theorem estimate_max_volume_size_cubic
    (mem : MemoryInfo) (dtype : GpuDType) (sf : ℝ) (_hsf : 0 ≤ sf) :
    (estimate_max_volume_size mem dtype sf).1 = (estimate_max_volume_size mem dtype sf).2.1 ∧
    (estimate_max_volume_size mem dtype sf).2.1 = (estimate_max_volume_size mem dtype sf).2.2 ∧
    (estimate_max_volume_size mem dtype sf).1 ≤ 2048 ∧
    (mem.available = 0 → estimate_max_volume_size mem dtype sf = (0, 0, 0)) := by
  refine ⟨rfl, rfl, min_le_right _ _, fun h => ?_⟩
  have hz : ((mem.available : ℝ) * sf / 3) / (if dtype = GpuDType.float32 then (4 : ℝ) else 2) = 0 := by
    rw [h]; push_cast; ring
  simp only [estimate_max_volume_size, hz]
  rw [Real.zero_rpow (by norm_num : (1 : ℝ) / 3 ≠ 0)]
  simp

/-- Witness for C10 at the concrete fallback memory report. -/
theorem estimate_max_volume_size_cubic_witness :
    (0 : ℝ) ≤ 0.7 ∧
    estimate_max_volume_size fallbackMemoryInfo GpuDType.float32 0.7 = (0, 0, 0) :=
  ⟨by norm_num,
   (estimate_max_volume_size_cubic fallbackMemoryInfo GpuDType.float32 0.7
     (by norm_num)).2.2.2 rfl⟩

/-! ### C8: fail-fast configuration errors in the orchestrator -/

/-- C8: an unknown algorithm id makes `analyze` fail before the image is
loaded and before any algorithm function runs (empty event trace), and
`_run_object_measurements` without a labels parameter fails before any
measurement computation starts. -/
theorem analyze_fails_fast {V R L M : Type}
    (loadImage : String → V) (runAlg : String → V → R) (measure : L → M)
    (file_path alg : String) (params : ObjectMeasurementsParams L)
    (halg : alg ∉ availableAlgorithms) (hlabels : params.labels = none) :
    analyze loadImage runAlg file_path alg =
      (Except.error ("Unknown algorithm: " ++ alg), []) ∧
    run_object_measurements measure params =
      (Except.error "object_measurements requires 'labels' parameter", []) := by
  constructor
  · simp [analyze, halg]
  · obtain ⟨labels, vs, cs⟩ := params
    cases hlabels
    rfl

/-- Witness for C8 at a concrete unknown algorithm id and a concrete
labels-free parameter mapping. -/
theorem analyze_fails_fast_witness :
    analyze (fun _ => ()) (fun _ _ => ()) "stack.tif" "not_an_algorithm" =
      (Except.error ("Unknown algorithm: " ++ "not_an_algorithm"), []) ∧
    run_object_measurements (fun l : Unit => l)
        ⟨none, (1, 1, 1), true⟩ =
      (Except.error "object_measurements requires 'labels' parameter", []) :=
  analyze_fails_fast _ _ _ "stack.tif" "not_an_algorithm" _ (by decide) rfl

/-! ### C2: Richardson-Lucy with zero iterations -/

/-- C2: for every volume and every PSF with nonzero sum,
`richardson_lucy_deconvolution` with `iterations = 0` returns the volume
unchanged in value (the update loop never runs). -/
theorem richardson_lucy_zero_iterations (volume psf : Vol3) (clip : Bool)
    (_hpsf : volSum psf ≠ 0) :
    richardson_lucy_deconvolution volume psf 0 clip = volume := by
  simp [richardson_lucy_deconvolution]

/-- Witness for C2 at a concrete volume and PSF. -/
theorem richardson_lucy_zero_iterations_witness :
    volSum unitPsf ≠ 0 ∧
    richardson_lucy_deconvolution impulseVol unitPsf 0 true = impulseVol := by
  have h : volSum unitPsf ≠ 0 := by
    simp [volSum, unitPsf]
  exact ⟨h, richardson_lucy_zero_iterations impulseVol unitPsf true h⟩

/-! ### C9: watershed marker generation and the gradient heuristic -/

/-- C9: when markers are absent, `watershed_segmentation_3d` floods from the
markers built out of the peak coordinates of the inverted input (the local
minima of the input), and the flooded surface is the Sobel gradient magnitude
of the input exactly when the input's maximum exceeds 1.0, the input itself
otherwise. -/
theorem watershed_markers_and_gradient {α : Type}
    (flood : Vol3 → ((ℕ × ℕ × ℕ) → ℕ) → Option (ℕ → ℕ → ℕ → Bool) → ℝ → α)
    (plm : Vol3 → ℕ → List (ℕ × ℕ × ℕ))
    (volume : Vol3) (mask : Option (ℕ → ℕ → ℕ → Bool)) (compactness : ℝ) :
    (1 < volMaxR volume →
      watershed_segmentation_3d flood plm volume none mask compactness =
        flood (sobel_3d volume) (markersFromCoords (plm (invertVol volume) 10))
          mask compactness) ∧
    (¬ 1 < volMaxR volume →
      watershed_segmentation_3d flood plm volume none mask compactness =
        flood volume (markersFromCoords (plm (invertVol volume) 10))
          mask compactness) := by
  constructor <;> intro h <;>
    simp [watershed_segmentation_3d, generate_watershed_markers, h]

/-- Witness for C9 at a concrete volume whose maximum is 2. -/
theorem watershed_markers_and_gradient_witness :
    1 < volMaxR brightVol ∧
    watershed_segmentation_3d (fun g _ _ _ => g) (fun _ _ => []) brightVol
        none none 0 = sobel_3d brightVol := by
  have h : 1 < volMaxR brightVol := by
    norm_num [volMaxR, volValues, brightVol]
  exact ⟨h, (watershed_markers_and_gradient (fun g _ _ _ => g) (fun _ _ => [])
    brightVol none 0).1 h⟩

/-! ### C4: photobleaching correction -/

/-- C4 counterexample: for the profile with z-values `[0, 1]` and means
`[2, 2]`, whose exact least-squares exponential fit is `I0 = 2, lamb = 0`
(`curve_fit` converges to the exact fit from its default start), the first
correction factor is 1/2, not 1: the exponential branch does not normalise to
the first time point. -/
theorem photobleach_first_factor_not_one :
    ((compute_photobleaching_correction [0, 1] [2, 2] (some (2, 0))
        "exponential").getD []).headD 0 ≠ 1 := by
  norm_num [compute_photobleaching_correction]

/-- C4 amended: when the exponential fit succeeds with parameters
`(I0, lamb)`, the correction is the plain pointwise inverse of the fitted
decay curve `I0 * exp(-lamb * z)` - no normalisation to the first time point
is applied, so the first factor is 1 only when the fitted value there is 1 -
and when the fit fails to converge the function falls back to the linear fit
instead of raising. -/
theorem photobleach_exponential_inverse (zs ms : List ℝ) (I0 lamb : ℝ) :
    compute_photobleaching_correction zs ms (some (I0, lamb)) "exponential" =
      some (zs.map (fun z => 1 / exp_decay I0 lamb z)) ∧
    compute_photobleaching_correction zs ms none "exponential" =
      some (linearCorrection zs ms) := by
  refine ⟨?_, rfl⟩
  simp only [compute_photobleaching_correction, if_true]
  congr 1
  refine List.map_congr_left fun z _ => ?_
  rw [exp_decay, neg_mul, Real.exp_neg, one_div, mul_inv, inv_inv,
    div_eq_mul_inv, mul_comm]

/-! ### C3: PSF padding and circular shift in Wiener deconvolution -/

/-- Helper for C3: along one axis of source size `s` and target size `t`,
an in-range rolled index hits the centred copy exactly at the original
position when `i < s`. -/
theorem roll_hit (s t i : ℕ) (hst : s ≤ t) (hi : i < s) :
    (i + (t - s) / 2) % t = i + (t - s) / 2 := by
  apply Nat.mod_eq_of_lt
  omega

/-- Helper for C3: along one axis, a rolled index with `s ≤ i < t` lands
outside the centred copy. -/
theorem roll_miss (s t i : ℕ) (hst : s ≤ t) (hi1 : s ≤ i) (hi2 : i < t) :
    ¬ ((t - s) / 2 ≤ (i + (t - s) / 2) % t ∧
       (i + (t - s) / 2) % t < (t - s) / 2 + s) := by
  rcases Nat.lt_or_ge (i + (t - s) / 2) t with h | h
  · rw [Nat.mod_eq_of_lt h]
    omega
  · rw [Nat.mod_eq_sub_mod h, Nat.mod_eq_of_lt (by omega)]
    omega

/-- C3 amended: for a PSF no larger than the target shape,
`_pad_psf_to_volume` zero-pads and circularly shifts so that the PSF's
first (corner) sample `psf[0,0,0]` - not its central peak - lands at index
`(0,0,0)`: the result is exactly the PSF extended by zeros, so the central
peak sits at `(nz//2, ny//2, nx//2)`.  (In `wiener_deconvolution` the result
is normalised to unit sum only after this padding, as the claim states.) -/
theorem pad_psf_to_volume_zero_extension (psf : Vol3) (tz ty tx : ℕ)
    (hz : psf.nz ≤ tz) (hy : psf.ny ≤ ty) (hx : psf.nx ≤ tx)
    (i j k : ℕ) (hi : i < tz) (hj : j < ty) (hk : k < tx) :
    (pad_psf_to_volume psf tz ty tx).data i j k =
      if i < psf.nz ∧ j < psf.ny ∧ k < psf.nx then psf.data i j k else 0 := by
  simp only [pad_psf_to_volume, psfPadCentered]
  by_cases hi' : i < psf.nz
  · by_cases hj' : j < psf.ny
    · by_cases hk' : k < psf.nx
      · rw [roll_hit _ _ _ hz hi', roll_hit _ _ _ hy hj', roll_hit _ _ _ hx hk',
          if_pos (by omega), if_pos ⟨hi', hj', hk'⟩]
        simp [Nat.add_sub_cancel]
      · have hm := roll_miss psf.nx tx k hx (le_of_not_lt hk') hk
        rw [if_neg (fun h => hm ⟨by omega, by omega⟩), if_neg (by tauto)]
    · have hm := roll_miss psf.ny ty j hy (le_of_not_lt hj') hj
      rw [if_neg (fun h => hm ⟨by omega, by omega⟩), if_neg (by tauto)]
  · have hm := roll_miss psf.nz tz i hz (le_of_not_lt hi') hi
    rw [if_neg (fun h => hm ⟨by omega, by omega⟩), if_neg (by tauto)]

/-- Witness for the amended C3 at the concrete `(3,3,3)` central-peak PSF
padded into a `(5,5,5)` volume. -/
theorem pad_psf_to_volume_zero_extension_witness :
    (pad_psf_to_volume deltaPsf3 5 5 5).data 2 2 2 = deltaPsf3.data 2 2 2 := by
  have h := pad_psf_to_volume_zero_extension deltaPsf3 5 5 5
    (by norm_num [deltaPsf3]) (by norm_num [deltaPsf3]) (by norm_num [deltaPsf3])
    2 2 2 (by norm_num) (by norm_num) (by norm_num)
  simpa [deltaPsf3] using h

/-- C3 counterexample: after `_pad_psf_to_volume`, the `(3,3,3)` PSF whose
peak (value 1, every other sample 0) is its central voxel `(1,1,1)` has
value 0 at the origin of the `(5,5,5)` padded array and its peak at
`(1,1,1)`: the peak does not lie at index `(0,0,0)`. -/
theorem pad_psf_peak_not_at_origin :
    (pad_psf_to_volume deltaPsf3 5 5 5).data 0 0 0 = 0 ∧
    (pad_psf_to_volume deltaPsf3 5 5 5).data 1 1 1 = 1 ∧
    (pad_psf_to_volume deltaPsf3 5 5 5).data 0 0 0 ≠
      (pad_psf_to_volume deltaPsf3 5 5 5).data 1 1 1 := by
  refine ⟨?_, ?_, ?_⟩ <;>
    norm_num [pad_psf_to_volume, psfPadCentered, deltaPsf3]

/-! ### C7: dense labels from connected_components_3d -/

/-- Every label produced by a labeling pass on the cells of the volume is at
most the reported number of components. -/
theorem labelVol_le (V : BinVol) (i : ℕ) (hi : i < numCells V) :
    (labelVol V).1 i ≤ (labelVol V).2 := by
  simp only [labelVol]
  by_cases h : isFg V i
  · simp only [h, if_true]
    have hmem : reps V i ∈ repList V := by
      refine List.mem_dedup.2 (List.mem_map_of_mem _ ?_)
      simp only [fgIdxs, List.mem_filter, List.mem_range]
      exact ⟨hi, h⟩
    have := List.indexOf_lt_length.2 hmem
    omega
  · simp [h]

/-- Every label `1..num_features` reported by a labeling pass is attained by
some cell of the volume. -/
theorem labelVol_surj (V : BinVol) (l : ℕ) (h1 : 1 ≤ l)
    (h2 : l ≤ (labelVol V).2) :
    ∃ i, i < numCells V ∧ (labelVol V).1 i = l := by
  have hlen : l - 1 < (repList V).length := by
    simp only [labelVol] at h2
    omega
  have hrmem : (repList V)[l - 1] ∈ repList V := List.getElem_mem hlen
  have hmap : (repList V)[l - 1] ∈ (fgIdxs V).map (reps V) :=
    List.mem_dedup.1 hrmem
  obtain ⟨i, hifg, hrep⟩ := List.mem_map.1 hmap
  have hi2 : i < numCells V ∧ isFg V i := by
    simpa [fgIdxs, List.mem_filter, List.mem_range] using hifg
  refine ⟨i, hi2.1, ?_⟩
  simp only [labelVol, hi2.2, if_true]
  have hnd : (repList V).Nodup := by
    unfold repList
    exact List.nodup_dedup _
  rw [hrep, List.indexOf_getElem hnd (l - 1) hlen]
  omega

/-- C7: for every binary volume and every `min_size`, the labeled volume
returned by `connected_components_3d` has dense labels: every label is at
most the reported component count N, and every label `1..N` is attained by
some voxel (0 is background). -/
theorem connected_components_labels_dense (V : BinVol) (min_size : ℕ) :
    (∀ i, i < numCells V →
      (connected_components_3d V min_size).1 i ≤
        (connected_components_3d V min_size).2) ∧
    (∀ l, 1 ≤ l → l ≤ (connected_components_3d V min_size).2 →
      ∃ i, i < numCells V ∧ (connected_components_3d V min_size).1 i = l) := by
  by_cases h : 1 < min_size <;>
    simp only [connected_components_3d, h, if_true, if_false] <;>
    exact ⟨fun i hi => labelVol_le _ i hi, fun l h1 h2 => labelVol_surj _ l h1 h2⟩

/-- Witness for C7 at a concrete all-foreground `(1,1,2)` volume, whose
single component has label 1. -/
theorem connected_components_labels_dense_witness :
    ∃ i, i < numCells allFgVol ∧ (connected_components_3d allFgVol 1).1 i = 1 :=
  (connected_components_labels_dense allFgVol 1).2 1 (le_refl 1) (by decide)

/-! ### C6: colocalization of a channel with itself -/

/-- Generic bound: a quantity of the form `x / (x + e)` with `x, e > 0` lies
in `[1 - e/x, 1)`.  Used for the epsilon-guarded Pearson and Manders
ratios. -/
theorem ratio_near_one {K : Type} [LinearOrderedField K] (x e : K)
    (hx : 0 < x) (he : 0 < e) :
    1 - e / x ≤ x / (x + e) ∧ x / (x + e) < 1 := by
  have hxe : 0 < x + e := by linarith
  constructor
  · have h1 : (1 : K) - e / x = (x - e) / x := by
      field_simp
    rw [h1, div_le_div_iff₀ hx hxe]
    nlinarith [sq_nonneg e]
  · rw [div_lt_one hxe]
    linarith

/-- The numpy 50th percentile of a nonempty list of positive rationals is
positive and is at most some element of the list. -/
theorem percentile50_pos_le (l : List ℚ) (hne : l ≠ [])
    (hpos : ∀ x ∈ l, 0 < x) :
    0 < percentile50 l ∧ ∃ x ∈ l, percentile50 l ≤ x := by
  have hperm : (l.mergeSort (fun a b => a ≤ b)).Perm l := List.mergeSort_perm l _
  set s := l.mergeSort (fun a b => a ≤ b) with hs
  have hmem : ∀ x ∈ s, 0 < x := fun x hx => hpos x (hperm.mem_iff.1 hx)
  have hlen : 0 < s.length := by
    rw [hperm.length_eq]
    exact List.length_pos.2 hne
  have hpair : List.Pairwise (fun a b : ℚ => a ≤ b) s := by
    have h := @List.sorted_mergeSort ℚ (fun a b => decide (a ≤ b))
      (fun a b c hab hbc =>
        decide_eq_true (le_trans (of_decide_eq_true hab) (of_decide_eq_true hbc)))
      (fun a b => by rcases le_total a b with h | h <;> simp [h]) l
    exact h.imp fun hab => of_decide_eq_true hab
  have hij : ∀ (i j : ℕ) (hi : i < s.length) (hj : j < s.length), i < j →
      s[i] ≤ s[j] := by
    intro i j hi hj hlt
    have := List.Sorted.rel_get_of_lt hpair
      (a := ⟨i, hi⟩) (b := ⟨j, hj⟩) (by exact hlt)
    simpa using this
  simp only [percentile50, ← hs]
  by_cases hodd : s.length % 2 = 1
  · simp only [hodd, if_true]
    have hhalf : s.length / 2 < s.length := Nat.div_lt_self hlen (by norm_num)
    rw [List.getD_eq_getElem s 0 hhalf]
    refine ⟨hmem _ (List.getElem_mem hhalf), s[s.length / 2],
      hperm.mem_iff.1 (List.getElem_mem hhalf), le_refl _⟩
  · simp only [hodd, if_false]
    have h2 : 2 ≤ s.length := by omega
    have hb : s.length / 2 < s.length := Nat.div_lt_self hlen (by norm_num)
    have ha : s.length / 2 - 1 < s.length := by omega
    rw [List.getD_eq_getElem s 0 ha, List.getD_eq_getElem s 0 hb]
    have hmono : s[s.length / 2 - 1] ≤ s[s.length / 2] := by
      refine hij _ _ ha hb (by omega)
    have hpa := hmem _ (List.getElem_mem ha)
    have hpb := hmem _ (List.getElem_mem hb)
    refine ⟨by linarith, s[s.length / 2],
      hperm.mem_iff.1 (List.getElem_mem hb), by linarith⟩

/-- With auto thresholds and no mask, the Manders denominator
`(ch1 * ch1_above).sum()` of `colocalization_analysis(A, A)` is the sum of
the above-threshold intensities of `A`. -/
theorem mandersDenom1_self_eq (A : List ℚ) :
    mandersDenom1 A A none none none =
      (A.map (fun v =>
        v * (if percentile50 (positives A) ≤ v then (1 : ℚ) else 0))).sum := by
  have h : mandersDenom1 A A none none none =
      (A.zipWith (· * ·) (A.map (fun v =>
        if percentile50 (positives A) ≤ v then (1 : ℚ) else 0))).sum := rfl
  rw [h, List.zipWith_map_right, List.zipWith_same]

/-- With at least one positive voxel, the Manders denominator of
`colocalization_analysis(A, A)` with auto thresholds is positive (the median
of the positive intensities is positive and attained or exceeded by some
voxel). -/
theorem mandersDenom1_self_pos (A : List ℚ) (hpos : ∃ a ∈ A, 0 < a) :
    0 < mandersDenom1 A A none none none := by
  obtain ⟨a, ha, ha0⟩ := hpos
  have haP : a ∈ positives A := by
    simp only [positives, List.mem_filter, decide_eq_true_iff]
    exact ⟨ha, ha0⟩
  have hPne : positives A ≠ [] := List.ne_nil_of_mem haP
  have hPpos : ∀ x ∈ positives A, 0 < x := by
    intro x hx
    simp only [positives, List.mem_filter, decide_eq_true_iff] at hx
    exact hx.2
  obtain ⟨hT0, x, hxP, hTx⟩ := percentile50_pos_le (positives A) hPne hPpos
  have hx0 : 0 < x := hPpos x hxP
  have hxA : x ∈ A := by
    simp only [positives, List.mem_filter] at hxP
    exact hxP.1
  rw [mandersDenom1_self_eq]
  set T := percentile50 (positives A) with hT
  have hnonneg : ∀ y ∈ A.map (fun v => v * (if T ≤ v then (1 : ℚ) else 0)),
      0 ≤ y := by
    intro y hy
    obtain ⟨v, _, rfl⟩ := List.mem_map.1 hy
    by_cases h : T ≤ v
    · rw [if_pos h, mul_one]
      linarith
    · rw [if_neg h, mul_zero]
  have hmm : x * (if T ≤ x then (1 : ℚ) else 0) ∈
      A.map (fun v => v * (if T ≤ v then (1 : ℚ) else 0)) :=
    List.mem_map_of_mem _ hxA
  have hle := List.single_le_sum hnonneg _ hmm
  rw [if_pos hTx, mul_one] at hle
  linarith

/-- With auto thresholds and no mask, Manders' M1 of
`colocalization_analysis(A, A)` is exactly `U / (U + 1e-10)` where `U` is the
Manders denominator. -/
theorem mandersM1_self_eq (A : List ℚ) :
    mandersM1 A A none none none =
      mandersDenom1 A A none none none /
        (mandersDenom1 A A none none none + 1e-10) := by
  have h : mandersM1 A A none none none =
      ((A.zipWith (· * ·) (A.map (fun v =>
          if percentile50 (positives A) ≤ v then (1 : ℚ) else 0))).zipWith (· * ·)
        (A.map (fun v =>
          if percentile50 (positives A) ≤ v then (1 : ℚ) else 0))).sum /
      ((A.zipWith (· * ·) (A.map (fun v =>
          if percentile50 (positives A) ≤ v then (1 : ℚ) else 0))).sum + 1e-10) := rfl
  rw [h, mandersDenom1_self_eq]
  rw [show (List.zipWith (fun x1 x2 : ℚ => x1 * x2) A
      (List.map (fun v => if percentile50 (positives A) ≤ v then (1 : ℚ) else 0) A)).sum =
    (List.map (fun v => v * if percentile50 (positives A) ≤ v then (1 : ℚ) else 0) A).sum from
    by rw [List.zipWith_map_right, List.zipWith_same]]
  congr 1
  rw [List.zipWith_map_right A A, List.zipWith_same, List.zipWith_map_left,
    List.zipWith_map_right, List.zipWith_same]
  refine congrArg List.sum (List.map_congr_left fun v _ => ?_)
  by_cases hv : percentile50 (positives A) ≤ v <;> simp [hv]

/-- With no mask, the Pearson numerator of `colocalization_analysis(A, A)`
is the squared deviation sum of `A`. -/
theorem pearsonNum_self_eq (A : List ℚ) :
    pearsonNum A A none = sumSqDev A none := by
  simp only [pearsonNum, sumSqDev, List.zipWith_same]
  exact congrArg List.sum (List.map_congr_left fun d _ => (sq d).symm)

/-- With no mask and positive variance, the Pearson coefficient of
`colocalization_analysis(A, A)` is exactly `S / (S + 1e-10)` where `S` is the
squared deviation sum. -/
theorem pearsonR_self_eq (A : List ℚ) (hS : 0 < sumSqDev A none) :
    pearsonR A A none =
      (sumSqDev A none : ℝ) / ((sumSqDev A none : ℝ) + 1e-10) := by
  have hc : ((sumSqDev A none * sumSqDev A none : ℚ) : ℝ) =
      (sumSqDev A none : ℝ) * (sumSqDev A none : ℝ) := by
    push_cast
    ring
  have hSR : (0 : ℝ) ≤ (sumSqDev A none : ℝ) := by
    exact_mod_cast le_of_lt hS
  rw [pearsonR, pearsonNum_self_eq, hc, Real.sqrt_mul_self hSR]

/-- C6: for every channel with at least one strictly positive voxel and
nonzero intensity variance, `colocalization_analysis(A, A)` (no mask, auto
thresholds) yields Manders' M1 equal to M2, a Pearson coefficient within
`1e-10 / S` of 1 (and below 1), and M1 within `1e-10 / U` of 1 (and below 1),
where `S` is the squared-deviation sum and `U > 0` the above-threshold
intensity sum: all three metrics are approximately 1. -/
theorem coloc_self_near_one (A : List ℚ) (hpos : ∃ a ∈ A, 0 < a)
    (hS : 0 < sumSqDev A none) :
    (colocalization_analysis A A none none none).manders_m1 =
      (colocalization_analysis A A none none none).manders_m2 ∧
    1 - (1e-10 : ℝ) / (sumSqDev A none : ℝ) ≤
      (colocalization_analysis A A none none none).pearson_r ∧
    (colocalization_analysis A A none none none).pearson_r < 1 ∧
    0 < mandersDenom1 A A none none none ∧
    1 - (1e-10 : ℚ) / mandersDenom1 A A none none none ≤
      (colocalization_analysis A A none none none).manders_m1 ∧
    (colocalization_analysis A A none none none).manders_m1 < 1 := by
  have hU := mandersDenom1_self_pos A hpos
  have hSR : (0 : ℝ) < (sumSqDev A none : ℝ) := by exact_mod_cast hS
  have hbp := ratio_near_one (K := ℝ) (sumSqDev A none : ℝ) 1e-10 hSR (by norm_num)
  have hbm := ratio_near_one (K := ℚ) (mandersDenom1 A A none none none) 1e-10 hU
    (by norm_num)
  have hp : (colocalization_analysis A A none none none).pearson_r =
      (sumSqDev A none : ℝ) / ((sumSqDev A none : ℝ) + 1e-10) :=
    pearsonR_self_eq A hS
  have hm : (colocalization_analysis A A none none none).manders_m1 =
      mandersDenom1 A A none none none /
        (mandersDenom1 A A none none none + 1e-10) :=
    mandersM1_self_eq A
  refine ⟨rfl, ?_, ?_, hU, ?_, ?_⟩
  · rw [hp]; exact hbp.1
  · rw [hp]; exact hbp.2
  · rw [hm]; exact hbm.1
  · rw [hm]; exact hbm.2

/-- Witness for C6 at the concrete channel `[0, 2]`. -/
theorem coloc_self_near_one_witness :
    (0 : ℚ) < sumSqDev [0, 2] none ∧
    (colocalization_analysis [0, 2] [0, 2] none none none).manders_m1 =
      (colocalization_analysis [0, 2] [0, 2] none none none).manders_m2 := by
  have h1 : ∃ a ∈ ([0, 2] : List ℚ), 0 < a := ⟨2, by simp, by norm_num⟩
  have h2 : (0 : ℚ) < sumSqDev [0, 2] none := by
    norm_num [sumSqDev, centeredChannel, maskedChannel, nPixels]
  exact ⟨h2, (coloc_self_near_one [0, 2] h1 h2).1⟩

/-! ### C1: Otsu threshold on an already-binary volume -/

/-- Folding `min` over a list drawn from `{a, b}` that contains `a` (or
starts from it) yields `a`. -/
theorem foldl_min_two {a b : ℚ} (hab : a < b) :
    ∀ (l : List ℚ) (v : ℚ), v = a ∨ v = b → (∀ x ∈ l, x = a ∨ x = b) →
      (v = a ∨ a ∈ l) → l.foldl min v = a
  | [], v, _, _, hmem => by
    rcases hmem with h | h
    · simpa using h
    · simp at h
  | x :: xs, v, hv, hl, hmem => by
    rw [List.foldl_cons]
    have hx := hl x (List.mem_cons_self x xs)
    refine foldl_min_two hab xs (min v x) ?_
      (fun y hy => hl y (List.mem_cons_of_mem x hy)) ?_
    · rcases hv with h1 | h1 <;> rcases hx with h2 | h2 <;> rw [h1, h2] <;>
        simp [min_eq_left hab.le, min_eq_right hab.le]
    · rcases hmem with h1 | hmem'
      · left
        rcases hx with h2 | h2 <;> rw [h1, h2] <;>
          simp [min_eq_left hab.le, min_eq_right hab.le]
      · rcases List.mem_cons.1 hmem' with h' | h'
        · left
          rw [← h']
          rcases hv with h1 | h1 <;> rw [h1] <;>
            simp [min_eq_left hab.le, min_eq_right hab.le]
        · exact Or.inr h'

/-- Folding `max` over a list drawn from `{a, b}` that contains `b` (or
starts from it) yields `b`. -/
theorem foldl_max_two {a b : ℚ} (hab : a < b) :
    ∀ (l : List ℚ) (v : ℚ), v = a ∨ v = b → (∀ x ∈ l, x = a ∨ x = b) →
      (v = b ∨ b ∈ l) → l.foldl max v = b
  | [], v, _, _, hmem => by
    rcases hmem with h | h
    · simpa using h
    · simp at h
  | x :: xs, v, hv, hl, hmem => by
    rw [List.foldl_cons]
    have hx := hl x (List.mem_cons_self x xs)
    refine foldl_max_two hab xs (max v x) ?_
      (fun y hy => hl y (List.mem_cons_of_mem x hy)) ?_
    · rcases hv with h1 | h1 <;> rcases hx with h2 | h2 <;> rw [h1, h2] <;>
        simp [max_eq_left hab.le, max_eq_right hab.le]
    · rcases hmem with h1 | hmem'
      · left
        rcases hx with h2 | h2 <;> rw [h1, h2] <;>
          simp [max_eq_left hab.le, max_eq_right hab.le]
      · rcases List.mem_cons.1 hmem' with h' | h'
        · left
          rw [← h']
          rcases hv with h1 | h1 <;> rw [h1] <;>
            simp [max_eq_left hab.le, max_eq_right hab.le]
        · exact Or.inr h'

/-- On a two-valued volume containing both values, `volume.min()` is the
smaller value. -/
theorem volMinQ_two {V : List ℚ} {a b : ℚ} (hab : a < b) (ha : a ∈ V)
    (hV : ∀ v ∈ V, v = a ∨ v = b) : volMinQ V = a := by
  cases V with
  | nil => cases ha
  | cons v vs =>
    show vs.foldl min v = a
    refine foldl_min_two hab vs v (hV v (List.mem_cons_self v vs))
      (fun y hy => hV y (List.mem_cons_of_mem v hy)) ?_
    rcases List.mem_cons.1 ha with h | h
    · exact Or.inl h.symm
    · exact Or.inr h

/-- On a two-valued volume containing both values, `volume.max()` is the
larger value. -/
theorem volMaxQ_two {V : List ℚ} {a b : ℚ} (hab : a < b) (hb : b ∈ V)
    (hV : ∀ v ∈ V, v = a ∨ v = b) : volMaxQ V = b := by
  cases V with
  | nil => cases hb
  | cons v vs =>
    show vs.foldl max v = b
    refine foldl_max_two hab vs v (hV v (List.mem_cons_self v vs))
      (fun y hy => hV y (List.mem_cons_of_mem v hy)) ?_
    rcases List.mem_cons.1 hb with h | h
    · exact Or.inl h.symm
    · exact Or.inr h

/-- One unfolding of the Otsu scan loop, with its `let` bindings expanded. -/
theorem otsuLoop_cons (h : ℕ → ℚ) (t st : ℚ) (i : ℕ) (rest : List ℕ)
    (s : OtsuState) :
    otsuLoop h t st (i :: rest) s =
      if s.wB + h i = 0 then otsuLoop h t st rest { s with wB := s.wB + h i }
      else if t - (s.wB + h i) = 0 then { s with wB := s.wB + h i }
      else if s.cm < (s.wB + h i) * (t - (s.wB + h i)) *
          ((s.sumB + i * h i) / (s.wB + h i) -
            (st - (s.sumB + i * h i)) / (t - (s.wB + h i))) ^ 2 then
        otsuLoop h t st rest ⟨(s.wB + h i) * (t - (s.wB + h i)) *
          ((s.sumB + i * h i) / (s.wB + h i) -
            (st - (s.sumB + i * h i)) / (t - (s.wB + h i))) ^ 2, i,
          s.sumB + i * h i, s.wB + h i⟩
      else otsuLoop h t st rest ⟨s.cm, s.ti, s.sumB + i * h i, s.wB + h i⟩ := rfl

/-- Scanning a stretch of empty histogram bins leaves the loop state
unchanged whenever the current state's between-class variance does not beat
`current_max` (in particular when it equals it). -/
theorem otsuLoop_skip (h : ℕ → ℚ) (t st : ℚ) (l rest : List ℕ) (s : OtsuState)
    (h0 : ∀ i ∈ l, h i = 0) (hwB : ¬ s.wB = 0) (hwF : ¬ t - s.wB = 0)
    (hcm : ¬ s.cm < s.wB * (t - s.wB) *
      (s.sumB / s.wB - (st - s.sumB) / (t - s.wB)) ^ 2) :
    otsuLoop h t st (l ++ rest) s = otsuLoop h t st rest s := by
  induction l with
  | nil => rfl
  | cons i is ih =>
    have hi : h i = 0 := h0 i (List.mem_cons_self i is)
    rw [List.cons_append, otsuLoop_cons, hi]
    simp only [add_zero, mul_zero]
    rw [if_neg hwB, if_neg hwF, if_neg hcm]
    exact ih fun j hj => h0 j (List.mem_cons_of_mem i hj)

/-- On a volume drawn from two values `a < b` whose bin indices are `0` and
`k ≠ 0`, the histogram counts the `a`-voxels in bin 0 and the `b`-voxels in
bin `k`. -/
theorem filter_binIdx_two (V : List ℚ) (a b : ℚ) (hab : a ≠ b) (k : ℕ)
    (hA : otsuBinIdx V a = 0) (hB : otsuBinIdx V b = k) (hk : ¬ k = 0)
    (i : ℕ) :
    ∀ (l : List ℚ), (∀ v ∈ l, v = a ∨ v = b) →
      (l.filter (fun v => otsuBinIdx V v = i)).length =
        (if i = 0 then l.count a else 0) + (if i = k then l.count b else 0)
  | [], _ => by simp
  | x :: xs, hl => by
    have hx := hl x (List.mem_cons_self x xs)
    have ih := filter_binIdx_two V a b hab k hA hB hk i xs
      (fun y hy => hl y (List.mem_cons_of_mem x hy))
    have hk' : ¬ (0 : ℕ) = k := fun h => hk h.symm
    rcases hx with h2 | h2 <;> rw [h2]
    · by_cases h0 : i = 0
      · subst h0
        rw [List.filter_cons, if_pos (by simp [hA]), List.length_cons, ih]
        simp [List.count_cons, hab, hk']
        try omega
      · rw [List.filter_cons,
          if_neg (by simp [hA]; exact fun h => h0 h.symm), ih]
        simp [List.count_cons, hab, h0]
        try omega
    · by_cases hik : i = k
      · subst hik
        rw [List.filter_cons, if_pos (by simp [hB]), List.length_cons, ih]
        simp [List.count_cons, Ne.symm hab, hk']
        try omega
      · rw [List.filter_cons,
          if_neg (by simp [hB]; exact fun h => hik h.symm), ih]
        simp [List.count_cons, Ne.symm hab, hik]
        try omega

/-- Core computation for C1: on a volume taking exactly the two values
`a < b` (both present), `otsu_threshold` returns the threshold `a` (the scan
keeps bin index 0) and an all-ones mask (since the mask is computed with
`>= threshold`). -/
theorem otsu_binary_aux (V : List ℚ) (a b : ℚ) (hab : a < b) (ha : a ∈ V)
    (hb : b ∈ V) (hV : ∀ v ∈ V, v = a ∨ v = b) :
    otsu_threshold V = (a, V.map (fun _ => (1 : ℚ))) := by
  have hmin : volMinQ V = a := volMinQ_two hab ha hV
  have hmax : volMaxQ V = b := volMaxQ_two hab hb hV
  have hden : (0 : ℚ) < b - a + 1e-10 := by
    have h1 : (0 : ℚ) < (1e-10 : ℚ) := by norm_num
    linarith
  have hbinA : otsuBinIdx V a = 0 := by
    have hnorm : otsuNorm V a = 0 := by
      rw [otsuNorm, hmin]
      simp
    rw [otsuBinIdx, hnorm]
    norm_num
  have hnormB : otsuNorm V b = (b - a) / (b - a + 1e-10) := by
    rw [otsuNorm, hmin, hmax]
  set k := otsuBinIdx V b with hkdef
  have hk254 : k ≤ 254 := by
    have hlt : otsuNorm V b * 255 < 255 := by
      rw [hnormB]
      have h1 : (b - a) / (b - a + 1e-10) < 1 := by
        rw [div_lt_one hden]
        norm_num
      nlinarith
    have h2 : ⌊otsuNorm V b * 255⌋ < 255 := Int.floor_lt.2 (by exact_mod_cast hlt)
    rw [hkdef, otsuBinIdx]
    omega
  suffices hti : (otsuLoop (otsuHist V) (∑ i ∈ Finset.range 256, otsuHist V i)
      (∑ i ∈ Finset.range 256, (i : ℚ) * otsuHist V i) (List.range 256)
      ⟨0, 0, 0, 0⟩).ti = 0 by
    have hthr : ((otsuLoop (otsuHist V) (∑ i ∈ Finset.range 256, otsuHist V i)
        (∑ i ∈ Finset.range 256, (i : ℚ) * otsuHist V i) (List.range 256)
        ⟨0, 0, 0, 0⟩).ti : ℚ) / 255 * (volMaxQ V - volMinQ V) + volMinQ V = a := by
      rw [hti, hmin, hmax]
      norm_num
    simp only [otsu_threshold]
    rw [Prod.mk.injEq]
    refine ⟨hthr, ?_⟩
    refine List.map_congr_left fun v hv => ?_
    rw [hthr]
    rcases hV v hv with h | h <;> rw [h]
    · rw [if_pos (le_refl a)]
    · rw [if_pos hab.le]
  rcases Nat.eq_zero_or_pos k with hk0 | hkpos
  · -- every voxel falls in bin 0: the scan breaks immediately at i = 0
    have hbinB0 : otsuBinIdx V b = 0 := by
      rw [← hkdef]
      exact hk0
    have hall : ∀ v ∈ V, otsuBinIdx V v = 0 := by
      intro v hv
      rcases hV v hv with h | h <;> rw [h]
      · exact hbinA
      · exact hbinB0
    have hfilter_all : ∀ i, otsuHist V i = if i = 0 then (V.length : ℚ) else 0 := by
      intro i
      rw [otsuHist]
      by_cases h0 : i = 0
      · subst h0
        rw [if_pos rfl]
        congr 1
        rw [List.filter_eq_self.2 (fun v hv => by simp [hall v hv])]
      · rw [if_neg h0]
        have hnil : V.filter (fun v => otsuBinIdx V v = i) = [] := by
          rw [List.filter_eq_nil_iff]
          intro v hv
          simp [hall v hv]
          exact fun h => h0 h.symm
        rw [hnil]
        simp
    have hlen0 : (V.length : ℚ) ≠ 0 := by
      have h1 : V ≠ [] := List.ne_nil_of_mem ha
      have h2 : V.length ≠ 0 := by simpa [List.length_eq_zero] using h1
      exact_mod_cast h2
    have hT : (∑ i ∈ Finset.range 256, otsuHist V i) = (V.length : ℚ) := by
      rw [Finset.sum_congr rfl (fun i _ => hfilter_all i),
        Finset.sum_ite_eq' (Finset.range 256) 0 (fun _ => (V.length : ℚ))]
      simp
    rw [hT]
    have hsplit : List.range 256 = 0 :: List.range' 1 255 := by
      rw [List.range_eq_range', show (256 : ℕ) = 255 + 1 from rfl, List.range'_succ]
    rw [hsplit, otsuLoop_cons]
    have h00 : otsuHist V 0 = (V.length : ℚ) := by
      rw [hfilter_all 0, if_pos rfl]
    rw [h00]
    have c1 : ¬ ((0 : ℚ) + (V.length : ℚ) = 0) := by
      intro h
      exact hlen0 (by linarith)
    have c2 : (V.length : ℚ) - ((0 : ℚ) + (V.length : ℚ)) = 0 := by ring
    rw [if_neg c1, if_pos c2]
  · -- the b-voxels land in bin k >= 1; bin 0 wins the scan and i = k breaks
    have hbinB : otsuBinIdx V b = k := hkdef.symm
    have hkne : ¬ k = 0 := by omega
    have hk0' : ¬ (0 : ℕ) = k := fun h => hkne h.symm
    have hist_eq : ∀ i, otsuHist V i =
        (if i = 0 then ((V.count a : ℕ) : ℚ) else 0) +
        (if i = k then ((V.count b : ℕ) : ℚ) else 0) := by
      intro i
      rw [otsuHist, filter_binIdx_two V a b hab.ne k hbinA hbinB hkne i V hV]
      split_ifs <;> push_cast <;> ring
    have hna1 : 1 ≤ V.count a := List.count_pos_iff.2 ha
    have hnb1 : 1 ≤ V.count b := List.count_pos_iff.2 hb
    have hnaQ : (1 : ℚ) ≤ ((V.count a : ℕ) : ℚ) := by exact_mod_cast hna1
    have hnbQ : (1 : ℚ) ≤ ((V.count b : ℕ) : ℚ) := by exact_mod_cast hnb1
    have hT : (∑ i ∈ Finset.range 256, otsuHist V i) =
        ((V.count a : ℕ) : ℚ) + ((V.count b : ℕ) : ℚ) := by
      rw [Finset.sum_congr rfl (fun i _ => hist_eq i), Finset.sum_add_distrib,
        Finset.sum_ite_eq' (Finset.range 256) 0 (fun _ => ((V.count a : ℕ) : ℚ)),
        Finset.sum_ite_eq' (Finset.range 256) k (fun _ => ((V.count b : ℕ) : ℚ)),
        if_pos (Finset.mem_range.2 (by omega)),
        if_pos (Finset.mem_range.2 (by omega))]
    have hST : (∑ i ∈ Finset.range 256, (i : ℚ) * otsuHist V i) =
        (k : ℚ) * ((V.count b : ℕ) : ℚ) := by
      have hpt : ∀ i ∈ Finset.range 256, (i : ℚ) * otsuHist V i =
          (if i = k then ((i : ℚ) * ((V.count b : ℕ) : ℚ)) else 0) := by
        intro i _
        rw [hist_eq i]
        by_cases h1 : i = 0
        · subst h1
          simp [hk0']
        · by_cases h2 : i = k
          · rw [h2]
            simp [hkne]
          · simp [h1, h2]
      rw [Finset.sum_congr rfl hpt,
        Finset.sum_ite_eq' (Finset.range 256) k (fun i => ((i : ℚ) * ((V.count b : ℕ) : ℚ))),
        if_pos (Finset.mem_range.2 (by omega))]
    rw [hT, hST]
    have hsplitB : List.range 256 =
        0 :: (List.range' 1 (k - 1) ++ List.range' k (256 - k)) := by
      rw [List.range_eq_range', show (256 : ℕ) = 255 + 1 from rfl, List.range'_succ]
      congr 1
      have happ := List.range'_append 1 (k - 1) (256 - k) 1
      rw [show 1 + 1 * (k - 1) = k from by omega,
        show 256 - k + (k - 1) = 255 from by omega] at happ
      exact happ.symm
    have hbreak : List.range' k (256 - k) = k :: List.range' (k + 1) (255 - k) := by
      rw [show 256 - k = (255 - k) + 1 from by omega, List.range'_succ]
    have hzero : ∀ i ∈ List.range' 1 (k - 1), otsuHist V i = 0 := by
      intro i hi
      rw [List.mem_range'] at hi
      obtain ⟨j, hj, rfl⟩ := hi
      rw [hist_eq]
      have h1 : ¬ (1 + j = 0) := by omega
      have h2 : ¬ (1 + j = k) := by omega
      simp [h1, h2]
    have h00 : otsuHist V 0 = ((V.count a : ℕ) : ℚ) := by
      rw [hist_eq 0]
      simp [hk0']
    have hkk : otsuHist V k = ((V.count b : ℕ) : ℚ) := by
      rw [hist_eq k]
      simp [hkne]
    rw [hsplitB, otsuLoop_cons, h00]
    have c1 : ¬ ((0 : ℚ) + ((V.count a : ℕ) : ℚ) = 0) := by
      intro h
      linarith
    have c2 : ¬ (((V.count a : ℕ) : ℚ) + ((V.count b : ℕ) : ℚ) -
        ((0 : ℚ) + ((V.count a : ℕ) : ℚ)) = 0) := by
      intro h
      linarith
    rw [if_neg c1, if_neg c2]
    have c4 : ¬ ((0 : ℚ) + ((V.count a : ℕ) : ℚ) + ((V.count b : ℕ) : ℚ) = 0) := by
      intro h
      linarith
    have c5 : ((V.count a : ℕ) : ℚ) + ((V.count b : ℕ) : ℚ) -
        ((0 : ℚ) + ((V.count a : ℕ) : ℚ) + ((V.count b : ℕ) : ℚ)) = 0 := by ring
    split_ifs with hcond
    · rw [otsuLoop_skip _ _ _ _ _ _ hzero c1 c2 (lt_irrefl _), hbreak,
        otsuLoop_cons, hkk, if_neg c4, if_pos c5]
    · rw [otsuLoop_skip _ _ _ _ _ _ hzero c1 c2 hcond, hbreak,
        otsuLoop_cons, hkk, if_neg c4, if_pos c5]

/-- C1 counterexample: on the already-binary volume `[0, 1]` (values 0 and 1,
both present), `otsu_threshold` returns threshold 0 - the minimum voxel value,
which does not strictly separate the two clusters - and the mask `[1, 1]`,
which differs from the input voxel-for-voxel. -/
theorem otsu_binary_mask_not_input :
    (otsu_threshold [0, 1]).1 = 0 ∧ (otsu_threshold [0, 1]).2 ≠ [0, 1] := by
  have h := otsu_binary_aux [0, 1] 0 1 (by norm_num) (by simp) (by simp)
    (fun v hv => by simpa using hv)
  constructor
  · rw [h]
  · rw [h]
    simp

/-- C1 amended: on every already-binary volume (exactly two distinct values
`a < b`, both present), `otsu_threshold` returns the lower value `a` as the
threshold (bin index 0 wins the scan, and the threshold rescales to the
volume minimum) and an all-ones binary mask (the mask is `volume >=
threshold`, which every voxel satisfies); in particular the mask equals the
input only when no voxel holds the lower value. -/
theorem otsu_threshold_binary (V : List ℚ) (a b : ℚ) (hab : a < b)
    (ha : a ∈ V) (hb : b ∈ V) (hV : ∀ v ∈ V, v = a ∨ v = b) :
    otsu_threshold V = (a, V.map (fun _ => (1 : ℚ))) :=
  otsu_binary_aux V a b hab ha hb hV

/-- Witness for the amended C1 at the concrete binary volume `[10, 5, 10]`. -/
theorem otsu_threshold_binary_witness :
    otsu_threshold [10, 5, 10] = (5, [1, 1, 1]) := by
  have h := otsu_threshold_binary [10, 5, 10] 5 10 (by norm_num) (by simp)
    (by simp) (fun v hv => by simp at hv; tauto)
  simpa using h

/-! ### C5: Gaussian blur shape and sum preservation -/

/-- The kernel of `gaussian_blur_3d` has at least one tap for positive
sigma. -/
theorem gaussKernelSize_pos (sigma : ℝ) (hs : 0 < sigma) :
    0 < gaussKernelSize sigma := by
  simp only [gaussKernelSize]
  have h1 : (1 : ℤ) ≤ ⌊6 * sigma + 1⌋ := Int.le_floor.2 (by push_cast; linarith)
  split_ifs <;> omega

/-- The normalised 1-D Gaussian kernel sums to 1. -/
theorem gaussKernel_sum (sigma : ℝ) (hs : 0 < sigma) :
    ∑ t ∈ Finset.range (gaussKernelSize sigma), gaussKernel sigma t = 1 := by
  have hpos : 0 < ∑ s ∈ Finset.range (gaussKernelSize sigma),
      gaussWeight sigma (gaussKernelSize sigma) s :=
    Finset.sum_pos (fun s _ => Real.exp_pos _)
      (Finset.nonempty_range_iff.2 (by
        have := gaussKernelSize_pos sigma hs
        omega))
  simp only [gaussKernel]
  rw [← Finset.sum_div, div_self hpos.ne']

/-- A unit-sum kernel convolved along z leaves a constant volume
unchanged. -/
theorem convolve1dZ_const (ker : ℕ → ℝ) (ks nz ny nx : ℕ) (c : ℝ)
    (hker : ∑ t ∈ Finset.range ks, ker t = 1) :
    convolve1dZ ker ks ⟨nz, ny, nx, fun _ _ _ => c⟩ = ⟨nz, ny, nx, fun _ _ _ => c⟩ := by
  simp only [convolve1dZ]
  congr 1
  funext i j k
  show (∑ t ∈ Finset.range ks, ker t * c) = c
  rw [← Finset.sum_mul, hker, one_mul]

/-- A unit-sum kernel convolved along y leaves a constant volume
unchanged. -/
theorem convolve1dY_const (ker : ℕ → ℝ) (ks nz ny nx : ℕ) (c : ℝ)
    (hker : ∑ t ∈ Finset.range ks, ker t = 1) :
    convolve1dY ker ks ⟨nz, ny, nx, fun _ _ _ => c⟩ = ⟨nz, ny, nx, fun _ _ _ => c⟩ := by
  simp only [convolve1dY]
  congr 1
  funext i j k
  show (∑ t ∈ Finset.range ks, ker t * c) = c
  rw [← Finset.sum_mul, hker, one_mul]

/-- A unit-sum kernel convolved along x leaves a constant volume
unchanged. -/
theorem convolve1dX_const (ker : ℕ → ℝ) (ks nz ny nx : ℕ) (c : ℝ)
    (hker : ∑ t ∈ Finset.range ks, ker t = 1) :
    convolve1dX ker ks ⟨nz, ny, nx, fun _ _ _ => c⟩ = ⟨nz, ny, nx, fun _ _ _ => c⟩ := by
  simp only [convolve1dX]
  congr 1
  funext i j k
  show (∑ t ∈ Finset.range ks, ker t * c) = c
  rw [← Finset.sum_mul, hker, one_mul]

/-- `gaussian_blur_3d` maps a constant volume to itself. -/
theorem gaussian_blur_const (nz ny nx : ℕ) (c sigma : ℝ) (hs : 0 < sigma) :
    gaussian_blur_3d ⟨nz, ny, nx, fun _ _ _ => c⟩ sigma =
      ⟨nz, ny, nx, fun _ _ _ => c⟩ := by
  have h1 := gaussKernel_sum sigma hs
  simp only [gaussian_blur_3d]
  rw [convolve1dZ_const _ _ _ _ _ _ h1, convolve1dY_const _ _ _ _ _ _ h1,
    convolve1dX_const _ _ _ _ _ _ h1]

/-- C5 amended: `gaussian_blur_3d` always preserves the spatial shape, and -
the 1-D kernel being normalised to unit sum - it preserves the total voxel
sum exactly on constant volumes; but with edge-replication padding the sum is
not preserved in general (boundary voxels are over-weighted), as the corner
impulse counterexample shows. -/
theorem gaussian_blur_shape_and_const_sum (v : Vol3) (nz ny nx : ℕ)
    (c sigma : ℝ) (hs : 0 < sigma) :
    ((gaussian_blur_3d v sigma).nz = v.nz ∧
     (gaussian_blur_3d v sigma).ny = v.ny ∧
     (gaussian_blur_3d v sigma).nx = v.nx) ∧
    volSum (gaussian_blur_3d ⟨nz, ny, nx, fun _ _ _ => c⟩ sigma) =
      volSum ⟨nz, ny, nx, fun _ _ _ => c⟩ := by
  refine ⟨⟨rfl, rfl, rfl⟩, ?_⟩
  rw [gaussian_blur_const nz ny nx c sigma hs]

/-- Witness for the amended C5 at a concrete constant volume and sigma 1. -/
theorem gaussian_blur_shape_and_const_sum_witness :
    (0 : ℝ) < 1 ∧
    (((gaussian_blur_3d brightVol 1).nz = brightVol.nz ∧
      (gaussian_blur_3d brightVol 1).ny = brightVol.ny ∧
      (gaussian_blur_3d brightVol 1).nx = brightVol.nx) ∧
     volSum (gaussian_blur_3d ⟨1, 1, 2, fun _ _ _ => (2 : ℝ)⟩ 1) =
       volSum ⟨1, 1, 2, fun _ _ _ => (2 : ℝ)⟩) :=
  ⟨by norm_num,
   gaussian_blur_shape_and_const_sum brightVol 1 1 2 2 1 (by norm_num)⟩

/-- C5 counterexample: for the `(1,1,3)` volume with a single unit impulse at
the corner and `sigma = 1` (kernel size 7, edge-replication padding), the
blurred voxel sum differs from the input sum: the boundary replication gives
the corner sample total weight `1 + k0 + k1 > 1`. -/
theorem gaussian_blur_sum_not_preserved :
    volSum (gaussian_blur_3d impulseVol 1) ≠ volSum impulseVol := by
  have hks : gaussKernelSize 1 = 7 := by
    simp only [gaussKernelSize]
    rw [show (6 : ℝ) * 1 + 1 = ((7 : ℕ) : ℝ) from by norm_num, Int.floor_natCast]
    rfl
  have hWpos : 0 < ∑ s ∈ Finset.range 7, gaussWeight 1 7 s :=
    Finset.sum_pos (fun s _ => Real.exp_pos _)
      (Finset.nonempty_range_iff.2 (by norm_num))
  have hkert : ∀ t, gaussKernel 1 t =
      gaussWeight 1 7 t / ∑ s ∈ Finset.range 7, gaussWeight 1 7 s := by
    intro t
    rw [gaussKernel, hks]
  have hsum1 : ∑ t ∈ Finset.range 7, gaussKernel 1 t = 1 := by
    rw [Finset.sum_congr rfl fun t _ => hkert t, ← Finset.sum_div,
      div_self hWpos.ne']
  have hSin : volSum impulseVol = 1 := by
    simp [volSum, impulseVol, Finset.sum_range_succ]
  have hblur : gaussian_blur_3d impulseVol 1 =
      convolve1dX (gaussKernel 1) 7
        (convolve1dY (gaussKernel 1) 7 (convolve1dZ (gaussKernel 1) 7 impulseVol)) := by
    simp only [gaussian_blur_3d]
    rw [hks]
  have hZ : ∀ j m, (convolve1dZ (gaussKernel 1) 7 impulseVol).data 0 j m =
      impulseVol.data 0 j m := by
    intro j m
    show (∑ t ∈ Finset.range 7, gaussKernel 1 t *
      impulseVol.data (replIdx impulseVol.nz (7 / 2) (0 + t)) j m) = _
    have hc : ∀ t ∈ Finset.range 7, gaussKernel 1 t *
        impulseVol.data (replIdx impulseVol.nz (7 / 2) (0 + t)) j m =
        gaussKernel 1 t * impulseVol.data 0 j m := by
      intro t _
      have hr : replIdx impulseVol.nz (7 / 2) (0 + t) = 0 := by
        show replIdx 1 3 (0 + t) = 0
        rw [replIdx]
        split_ifs <;> omega
      rw [hr]
    rw [Finset.sum_congr rfl hc, ← Finset.sum_mul, hsum1, one_mul]
  have hY : ∀ m, (convolve1dY (gaussKernel 1) 7
      (convolve1dZ (gaussKernel 1) 7 impulseVol)).data 0 0 m =
      impulseVol.data 0 0 m := by
    intro m
    show (∑ t ∈ Finset.range 7, gaussKernel 1 t *
      (convolve1dZ (gaussKernel 1) 7 impulseVol).data 0
        (replIdx (convolve1dZ (gaussKernel 1) 7 impulseVol).ny (7 / 2) (0 + t)) m) = _
    have hc : ∀ t ∈ Finset.range 7, gaussKernel 1 t *
        (convolve1dZ (gaussKernel 1) 7 impulseVol).data 0
          (replIdx (convolve1dZ (gaussKernel 1) 7 impulseVol).ny (7 / 2) (0 + t)) m =
        gaussKernel 1 t * impulseVol.data 0 0 m := by
      intro t _
      have hr : replIdx (convolve1dZ (gaussKernel 1) 7 impulseVol).ny (7 / 2) (0 + t) = 0 := by
        show replIdx 1 3 (0 + t) = 0
        rw [replIdx]
        split_ifs <;> omega
      rw [hr, hZ 0 m]
    rw [Finset.sum_congr rfl hc, ← Finset.sum_mul, hsum1, one_mul]
  have hX : ∀ k, (convolve1dX (gaussKernel 1) 7
      (convolve1dY (gaussKernel 1) 7 (convolve1dZ (gaussKernel 1) 7 impulseVol))).data 0 0 k =
      ∑ t ∈ Finset.range 7, gaussKernel 1 t *
        impulseVol.data 0 0 (replIdx 3 3 (k + t)) := by
    intro k
    show (∑ t ∈ Finset.range 7, gaussKernel 1 t *
      (convolve1dY (gaussKernel 1) 7 (convolve1dZ (gaussKernel 1) 7 impulseVol)).data 0 0
        (replIdx 3 3 (k + t))) = _
    exact Finset.sum_congr rfl fun t _ => by rw [hY]
  have h0 : (convolve1dX (gaussKernel 1) 7
      (convolve1dY (gaussKernel 1) 7 (convolve1dZ (gaussKernel 1) 7 impulseVol))).data 0 0 0 =
      gaussKernel 1 0 + gaussKernel 1 1 + gaussKernel 1 2 + gaussKernel 1 3 := by
    rw [hX 0, Finset.sum_range_succ, Finset.sum_range_succ, Finset.sum_range_succ,
      Finset.sum_range_succ, Finset.sum_range_succ, Finset.sum_range_succ,
      Finset.sum_range_succ, Finset.sum_range_zero]
    norm_num [replIdx, impulseVol]
  have h1 : (convolve1dX (gaussKernel 1) 7
      (convolve1dY (gaussKernel 1) 7 (convolve1dZ (gaussKernel 1) 7 impulseVol))).data 0 0 1 =
      gaussKernel 1 0 + gaussKernel 1 1 + gaussKernel 1 2 := by
    rw [hX 1, Finset.sum_range_succ, Finset.sum_range_succ, Finset.sum_range_succ,
      Finset.sum_range_succ, Finset.sum_range_succ, Finset.sum_range_succ,
      Finset.sum_range_succ, Finset.sum_range_zero]
    norm_num [replIdx, impulseVol]
  have h2 : (convolve1dX (gaussKernel 1) 7
      (convolve1dY (gaussKernel 1) 7 (convolve1dZ (gaussKernel 1) 7 impulseVol))).data 0 0 2 =
      gaussKernel 1 0 + gaussKernel 1 1 := by
    rw [hX 2, Finset.sum_range_succ, Finset.sum_range_succ, Finset.sum_range_succ,
      Finset.sum_range_succ, Finset.sum_range_succ, Finset.sum_range_succ,
      Finset.sum_range_succ, Finset.sum_range_zero]
    norm_num [replIdx, impulseVol]
  have hvs : ∀ d : ℕ → ℕ → ℕ → ℝ, volSum ⟨1, 1, 3, d⟩ =
      d 0 0 0 + d 0 0 1 + d 0 0 2 := by
    intro d
    simp [volSum, Finset.sum_range_succ]
  have hfinal : volSum (gaussian_blur_3d impulseVol 1) =
      (gaussKernel 1 0 + gaussKernel 1 1 + gaussKernel 1 2 + gaussKernel 1 3) +
      (gaussKernel 1 0 + gaussKernel 1 1 + gaussKernel 1 2) +
      (gaussKernel 1 0 + gaussKernel 1 1) := by
    rw [hblur]
    rw [show (convolve1dX (gaussKernel 1) 7
        (convolve1dY (gaussKernel 1) 7 (convolve1dZ (gaussKernel 1) 7 impulseVol))) =
      (⟨1, 1, 3, (convolve1dX (gaussKernel 1) 7
        (convolve1dY (gaussKernel 1) 7 (convolve1dZ (gaussKernel 1) 7 impulseVol))).data⟩ : Vol3)
      from rfl]
    rw [hvs, h0, h1, h2]
  have hw4 : gaussWeight 1 7 4 = gaussWeight 1 7 2 := by
    rw [gaussWeight, gaussWeight]
    congr 1
    norm_num
  have hw5 : gaussWeight 1 7 5 = gaussWeight 1 7 1 := by
    rw [gaussWeight, gaussWeight]
    congr 1
    norm_num
  have hw6 : gaussWeight 1 7 6 = gaussWeight 1 7 0 := by
    rw [gaussWeight, gaussWeight]
    congr 1
    norm_num
  have hk4 : gaussKernel 1 4 = gaussKernel 1 2 := by
    rw [hkert 4, hkert 2, hw4]
  have hk5 : gaussKernel 1 5 = gaussKernel 1 1 := by
    rw [hkert 5, hkert 1, hw5]
  have hk6 : gaussKernel 1 6 = gaussKernel 1 0 := by
    rw [hkert 6, hkert 0, hw6]
  have hp0 : 0 < gaussKernel 1 0 := by
    rw [hkert 0]
    exact div_pos (Real.exp_pos _) hWpos
  have hp1 : 0 < gaussKernel 1 1 := by
    rw [hkert 1]
    exact div_pos (Real.exp_pos _) hWpos
  have h7 := hsum1
  rw [Finset.sum_range_succ, Finset.sum_range_succ, Finset.sum_range_succ,
    Finset.sum_range_succ, Finset.sum_range_succ, Finset.sum_range_succ,
    Finset.sum_range_succ, Finset.sum_range_zero, hk4, hk5, hk6] at h7
  intro hcon
  rw [hfinal, hSin] at hcon
  linarith

end ZStack
